import Mathlib

/-!
Shallow embedding of `src/bin/yarn2nix.js` (the yarn2nix tool): a lockfile-to-nix
catalog builder (`generateNix`) and a hash reconciler (`updateResolvedSha1` driven
by the `main` promise chain).  Strings are Lean `String`s; the ordered lockfile
mapping is a `List (String × LockEntry)` in insertion order; the network fetch
(`getSha1`) and the `nix-prefetch-git` subprocess (`getGitSha1`) are an oracle
record, since they are external collaborators.
-/

namespace Yarn2Nix

/-- Models JavaScript `\w` (word character): `[A-Za-z0-9_]`. -/
def isWordChar (c : Char) : Bool :=
  c.isAlpha || c.isDigit || c = '_'

/-- Models JavaScript `String.prototype.split` with separator `"#"`, on the
character list of the string: the list of (possibly empty) chunks between the
occurrences of `'#'`.  On the empty list it returns `[[]]`, as JS
`"".split("#")` returns `[""]`. -/
def jsSplitHash : List Char → List (List Char)
  | [] => [[]]
  | c :: rest =>
    if c = '#' then [] :: jsSplitHash rest
    else
      match jsSplitHash rest with
      | [] => [[c]]
      | h :: t => (c :: h) :: t

/-- String-level version of `jsSplitHash`: JS `s.split("#")`. -/
def splitHashStr (s : String) : List String :=
  (jsSplitHash s.data).map (fun l => ⟨l⟩)

/-- The destructuring `let [url, sha1] = resolved.split("#")` (generateNix, line 58)
and `let [url, sha1] = pkg.resolved.split("#", 2)` (updateResolvedSha1, line 126):
both take the FIRST two chunks of the split (the limit `2` only truncates the
array).  The second component is `none` when there is no `#` at all, modelling
the JS `undefined`. -/
def splitResolved (s : String) : String × Option String :=
  match splitHashStr s with
  | [] => (s, none)
  | [u] => (u, none)
  | u :: t :: _ => (u, some t)

/-- JS template-literal interpolation of a possibly-`undefined` string value:
interpolating `undefined` produces the literal text `"undefined"`. -/
def jsStr : Option String → String
  | some s => s
  | none => "undefined"

/-- Boolean list-prefix test used to model anchored regex tests. -/
def listPre : List Char → List Char → Bool
  | [], _ => true
  | _ :: _, [] => false
  | a :: as, b :: bs => if a = b then listPre as bs else false

/-- Models an anchored-at-start regex test such as `/^git\+https:\/\//`. -/
def hasPre (p s : String) : Bool := listPre p.data s.data

/-- Models an anchored-at-end regex test such as `/\.git$/`. -/
def hasSuf (p s : String) : Bool := listPre p.data.reverse s.data.reverse

/-- Embeds `is_https_git` (lines 38-44): if `url` matches `/^git\+https:\/\//`,
return the url with its first four characters (`git+`) removed (`url.substr(4)`);
else if it matches `/\.git$/`, return the url unchanged; else nothing. -/
def is_https_git (url : String) : Option String :=
  if hasPre "git+https://" url then some ⟨url.data.drop 4⟩
  else if hasSuf ".git" url then some url
  else none

/-- Scans for the first `://` in a character list, returning what follows it.
Part of the model of node's legacy `url.parse`. -/
def afterScheme : List Char → Option (List Char)
  | ':' :: '/' :: '/' :: rest => some rest
  | _ :: rest => afterScheme rest
  | [] => none

/-- The final `/`-separated segment of a path, ignoring trailing slashes:
models `path.basename` on the POSIX paths a lockfile holds. -/
def lastSegment (l : List Char) : String :=
  ⟨((l.reverse.dropWhile (fun c => c = '/')).takeWhile (fun c => c ≠ '/')).reverse⟩

/-- Models the composite `path.basename(url.parse(pkg_url).pathname)` from
line 59 for the URL shapes a lockfile holds: the query suffix (from the first
`?`) is not part of `pathname`; when a `scheme://authority` part is present it
is removed, the pathname starting at the next `/`; the basename is the last
`/`-separated segment of what remains. -/
def urlBasename (u : String) : String :=
  let noQuery := u.data.takeWhile (fun c => c ≠ '?')
  let p :=
    match afterScheme noQuery with
    | none => noQuery
    | some rest => rest.dropWhile (fun c => c ≠ '/')
  lastSegment p

/-- Embeds lines 54-55: `depRange.match(/(^@\w+)\//)` and
`namespace = namespaceMatch ? namespaceMatch[1] + "-" : ""`.  The regex matches
when the key starts with `@`, then one or more word characters, then `/`; the
captured group is `@` plus the word characters. -/
def namespaceOf (key : String) : String :=
  match key.data with
  | '@' :: rest =>
    match rest.takeWhile isWordChar, rest.dropWhile isWordChar with
    | [], _ => ""
    | w, '/' :: _ => "@" ++ (⟨w⟩ : String) ++ "-"
    | _, _ => ""
  | _ => ""

/-- One lockfile entry (the value under one `depRange` key).  `resolved` and
`sha256` are the two fields the tool reads and writes; `others` stands for all
remaining fields (version, dependencies, ...), which the tool never touches.
`none` models an absent field. -/
structure LockEntry where
  resolved : Option String
  sha256 : Option String
  others : List (String × String)
deriving Repr, DecidableEq

/-- Kind of an emitted catalog record: `fetchurl` vs `fetchgitTarball`. -/
inductive FetchKind
  | plain
  | sourceControl
deriving Repr, DecidableEq

/-- One emitted catalog block, with the fields interpolated into the nix
expression: `full_file_name` is the `name =` field (the dedup key); for
`plain`, `url` is `pkg_url` and `token` the `sha1 =` field; for
`sourceControl`, `url` is the git URL from `is_https_git`, `token` the
`rev =` field and `sha256` the `sha256 =` field. -/
structure Descriptor where
  full_file_name : String
  file_name : String
  kind : FetchKind
  url : String
  token : String
  sha256 : String
deriving Repr, DecidableEq

/-- The per-entry body of the `generateNix` loop (lines 51-89), as the
descriptor it would emit before deduplication: `none` when the entry is
skipped by `if (!dep.resolved) continue` (absent or empty, both falsy). -/
def descriptorOf (key : String) (dep : LockEntry) : Option Descriptor :=
  match dep.resolved with
  | none => none
  | some resolved =>
    if resolved = "" then none
    else
      let ns := namespaceOf key
      let p := splitResolved resolved
      let pkg_url := p.1
      let sha1 := p.2
      let file_name := urlBasename pkg_url
      match is_https_git pkg_url with
      | some gurl =>
        some { full_file_name := ns ++ (file_name ++ "-" ++ jsStr sha1),
               file_name := file_name, kind := FetchKind.sourceControl,
               url := gurl, token := jsStr sha1, sha256 := jsStr dep.sha256 }
      | none =>
        some { full_file_name := ns ++ file_name,
               file_name := file_name, kind := FetchKind.plain,
               url := pkg_url, token := jsStr sha1, sha256 := jsStr dep.sha256 }

/-- `descriptorOf` on a key-entry pair. -/
def descrOfPair (p : String × LockEntry) : Option Descriptor :=
  descriptorOf p.1 p.2

/-- The `generateNix` loop with its `found` seen-set (lines 52, 63-67): a
descriptor whose `full_file_name` is already in `found` is skipped silently;
otherwise it is emitted and its name recorded. -/
def generateNixAux : List (String × LockEntry) → List String → List Descriptor
  | [], _ => []
  | p :: rest, found =>
    match descrOfPair p with
    | none => generateNixAux rest found
    | some d =>
      if d.full_file_name ∈ found then generateNixAux rest found
      else d :: generateNixAux rest (d.full_file_name :: found)

/-- Embeds `generateNix` (lines 46-92) as the ordered list of descriptor
blocks it prints between the fixed head and tail. -/
def generateNix (deps : List (String × LockEntry)) : List Descriptor :=
  generateNixAux deps []

/-- The external collaborators of the reconciler: `fetchSha1 url` models
`getSha1` (HTTPS fetch + incremental sha1 of the body, lines 95-113), and
`gitSha256 url rev` models `getGitSha1` (the `nix-prefetch-git` subprocess,
lines 115-119).  `Except.error` models a rejected promise. -/
structure Oracle where
  fetchSha1 : String → Except String String
  gitSha256 : String → String → Except String String

/-- The literal string assigned on line 130, `pkg.resolved = "${url}#${pkg_sha1}";`:
the source uses double quotes, not backticks, so nothing is interpolated and the
assigned value is these nineteen characters verbatim. -/
def literalResolvedTemplate : String := "\x24\x7burl\x7d#\x24\x7bpkg_sha1\x7d"

/-- Embeds `updateResolvedSha1` (lines 121-136).  An absent or empty `resolved`
(both falsy) returns the entry unchanged.  Otherwise the `resolved` string is
split; if the token is missing or empty (falsy `sha1`), the body is fetched and
`resolved` is overwritten with the literal template string from line 130; else
if the url is a git url, `nix-prefetch-git` is consulted and its sha256 stored
in the entry's `sha256` field; else the entry is returned unchanged. -/
def updateResolvedSha1 (o : Oracle) (pkg : LockEntry) : Except String LockEntry :=
  match pkg.resolved with
  | none => Except.ok pkg
  | some resolved =>
    if resolved = "" then Except.ok pkg
    else
      let p := splitResolved resolved
      let url := p.1
      let sha1 := p.2
      if sha1 = none ∨ sha1 = some "" then
        (o.fetchSha1 url).map (fun _pkg_sha1 =>
          { pkg with resolved := some literalResolvedTemplate })
      else
        match is_https_git url with
        | some gurl =>
          (o.gitSha256 gurl (jsStr sha1)).map (fun s => { pkg with sha256 := some s })
        | none => Except.ok pkg

/-- Embeds `Promise.all(pkgs.map(updateResolvedSha1))` over the entries in
lockfile order: all entries are reconciled, and any rejection rejects the
whole batch (no partial result is observable, since the then-branch never
runs). -/
def reconcile (o : Oracle) : List (String × LockEntry) → Except String (List (String × LockEntry))
  | [] => Except.ok []
  | (k, e) :: rest =>
    match updateResolvedSha1 o e with
    | Except.error err => Except.error err
    | Except.ok e2 =>
      match reconcile o rest with
      | Except.error err => Except.error err
      | Except.ok rest2 => Except.ok ((k, e2) :: rest2)

/-- Observable outcome of one run: the process exit code, whether the lockfile
file was rewritten, and the emitted catalog (`none` when nothing was printed). -/
structure RunOutcome where
  exitCode : Nat
  wroteLockfile : Bool
  catalog : Option (List Descriptor)
deriving Repr, DecidableEq

/-- Embeds the promise chain of `main` (lines 160-180), after a successful
parse of the lockfile into `orig`.  A rejected reconciliation lands in the
`catch`: exit 1, nothing written, no catalog.  Otherwise the reconciled
structure is compared (deep-equal) against a reparse of the original bytes,
i.e. against `orig`; on a difference, `--no-patch` exits 1 before writing,
else the file is rewritten; finally the catalog is printed unless `--no-nix`. -/
def mainRun (o : Oracle) (noPatch noNix : Bool)
    (orig : List (String × LockEntry)) : RunOutcome :=
  match reconcile o orig with
  | Except.error _ => { exitCode := 1, wroteLockfile := false, catalog := none }
  | Except.ok json =>
    if json = orig then
      { exitCode := 0, wroteLockfile := false,
        catalog := if noNix then none else some (generateNix json) }
    else if noPatch then
      { exitCode := 1, wroteLockfile := false, catalog := none }
    else
      { exitCode := 0, wroteLockfile := true,
        catalog := if noNix then none else some (generateNix json) }

/-- The split the specification describes: at the LAST `#`, so a url that
itself contains `#` keeps everything before the final `#`.  Stated from the
spec's words, for comparison with `splitResolved`. -/
def splitResolvedLastSpec (s : String) : String × Option String :=
  match (jsSplitHash s.data).reverse with
  | [] => (s, none)
  | [_] => (s, none)
  | t :: us => (⟨List.intercalate ['#'] us.reverse⟩, some ⟨t⟩)

/-- Hypothesis of the reconciliation round-trip: the entry already carries its
required integrity data — either no `resolved` field, or a non-empty token
after the split, and, when the url is classified as a git url, a `sha256`
field equal to what the resolution tool returns for that url and token. -/
def entryFullyHashed (o : Oracle) (e : LockEntry) : Prop :=
  ∀ r, e.resolved = some r →
    ∃ t, (splitResolved r).2 = some t ∧ t ≠ "" ∧
      (∀ g, is_https_git (splitResolved r).1 = some g →
        ∃ s, e.sha256 = some s ∧ o.gitSha256 g t = Except.ok s)

/-! Concrete entries, lockfiles and oracles used to instantiate the theorems. -/

/-- Oracle whose fetch and prefetch always succeed with fixed digests. -/
def exOracle : Oracle :=
  { fetchSha1 := fun _ => Except.ok "0ddba11", gitSha256 := fun _ _ => Except.ok "s256val" }

/-- Oracle whose fetch and prefetch always fail. -/
def exErrOracle : Oracle :=
  { fetchSha1 := fun _ => Except.error "ECONNREFUSED",
    gitSha256 := fun _ _ => Except.error "nix-prefetch-git failed" }

/-- Plain-URL entry already carrying its content hash. -/
def exPlainHashed : LockEntry :=
  { resolved := some "https://example.com/a-1.0.0.tgz#abc123", sha256 := none,
    others := [("version", "1.0.0")] }

/-- Git entry whose `sha256` matches what `exOracle` returns. -/
def exGitHashed : LockEntry :=
  { resolved := some "git+https://example.com/repo.git#deadbeef", sha256 := some "s256val",
    others := [] }

/-- Git entry that reaches the catalog builder without a `sha256`. -/
def exGitNoSha : LockEntry :=
  { resolved := some "git+https://example.com/repo.git#deadbeef", sha256 := none, others := [] }

/-- Plain-URL entry with no `#token` at all. -/
def exNoHash : LockEntry :=
  { resolved := some "https://example.com/a-1.0.0.tgz", sha256 := none, others := [] }

/-- Local/workspace entry: no `resolved` field. -/
def exLocal : LockEntry :=
  { resolved := none, sha256 := none, others := [("version", "0.0.1")] }

/-- Scoped-key entry for the namespace example. -/
def exScoped : LockEntry :=
  { resolved := some "https://registry.npmjs.org/pkg/-/pkg-1.0.0.tgz#abc123", sha256 := none,
    others := [] }

/-- Fully hashed three-entry lockfile. -/
def exHashedDeps : List (String × LockEntry) :=
  [("a@^1.0.0", exPlainHashed), ("repo@1", exGitHashed), ("local@file:./x", exLocal)]

/-- Lockfile with two entries whose derived `full_file_name` collide
(same basename `a.tgz` from different hosts) and a third distinct entry. -/
def exDupDeps : List (String × LockEntry) :=
  [("a@1", { resolved := some "https://e.com/a.tgz#h1", sha256 := none, others := [] }),
   ("b@1", { resolved := some "https://other.com/a.tgz#h2", sha256 := none, others := [] }),
   ("c@1", { resolved := some "https://e.com/c.tgz#h3", sha256 := none, others := [] })]

/-- The descriptor `generateNix` derives from `exScoped` under key
`@scope/pkg@^1.0.0`. -/
def exScopedDescr : Descriptor :=
  { full_file_name := "@scope-pkg-1.0.0.tgz", file_name := "pkg-1.0.0.tgz",
    kind := FetchKind.plain, url := "https://registry.npmjs.org/pkg/-/pkg-1.0.0.tgz",
    token := "abc123", sha256 := "undefined" }

/-- Single-entry lockfile whose entry has no token. -/
def exNoHashDeps : List (String × LockEntry) :=
  [("a@^1.0.0", exNoHash)]

/-- What reconciling `exNoHashDeps` under `exOracle` produces: the entry's
`resolved` replaced by the uninterpolated literal from line 130. -/
def exPatchedDeps : List (String × LockEntry) :=
  [("a@^1.0.0", { resolved := some literalResolvedTemplate, sha256 := none, others := [] })]

/-! Helper lemmas about the `#`-split. -/

theorem jsSplitHash_ne_nil (l : List Char) : jsSplitHash l ≠ [] := by
  cases l with
  | nil => simp [jsSplitHash]
  | cons c rest =>
    simp only [jsSplitHash]
    by_cases h : c = '#'
    · simp [h]
    · simp only [if_neg h]
      cases jsSplitHash rest <;> simp

theorem jsSplitHash_of_no_hash (l : List Char) (h : '#' ∉ l) : jsSplitHash l = [l] := by
  induction l with
  | nil => rfl
  | cons c rest ih =>
    have hc : ¬ c = '#' := fun e => h (by simp [e])
    have hr : '#' ∉ rest := fun e => h (List.mem_cons_of_mem c e)
    simp [jsSplitHash, if_neg hc, ih hr]

theorem jsSplitHash_append (u l : List Char) (h : '#' ∉ u) :
    jsSplitHash (u ++ '#' :: l) = u :: jsSplitHash l := by
  induction u with
  | nil => simp [jsSplitHash]
  | cons c rest ih =>
    have hc : ¬ c = '#' := fun e => h (by simp [e])
    have hr : '#' ∉ rest := fun e => h (List.mem_cons_of_mem c e)
    simp only [List.cons_append, jsSplitHash, if_neg hc, List.append_eq, ih hr]

theorem strApp_data (a b : String) : (a ++ b).data = a.data ++ b.data :=
  String.data_append a b

theorem hashChar_data : ("#" : String).data = ['#'] := rfl

theorem strApp_hash_ne_empty (u v : String) : u ++ "#" ++ v ≠ "" := by
  intro he
  have h1 : (u ++ "#" ++ v).data = [] := by rw [he]
  rw [strApp_data, strApp_data, hashChar_data] at h1
  simpa using congrArg List.length h1

theorem splitResolved_single (u t : String) (hu : '#' ∉ u.data) (ht : '#' ∉ t.data) :
    splitResolved (u ++ "#" ++ t) = (u, some t) := by
  have hd : (u ++ "#" ++ t).data = u.data ++ '#' :: t.data := by
    rw [strApp_data, strApp_data, hashChar_data, List.append_assoc]
    rfl
  simp only [splitResolved, splitHashStr, hd, jsSplitHash_append u.data _ hu,
    jsSplitHash_of_no_hash t.data ht, List.map_cons, List.map_nil]

theorem splitResolved_multi (u t r : String) (hu : '#' ∉ u.data) (ht : '#' ∉ t.data) :
    splitResolved (u ++ "#" ++ t ++ "#" ++ r) = (u, some t) := by
  have hd : (u ++ "#" ++ t ++ "#" ++ r).data = u.data ++ '#' :: (t.data ++ '#' :: r.data) := by
    rw [strApp_data, strApp_data, strApp_data, strApp_data, hashChar_data,
      List.append_assoc, List.append_assoc, List.append_assoc]
    rfl
  simp only [splitResolved, splitHashStr, hd, jsSplitHash_append u.data _ hu,
    jsSplitHash_append t.data _ ht, List.map_cons]

theorem splitResolved_no_hash (s : String) (h : '#' ∉ s.data) :
    splitResolved s = (s, none) := by
  simp only [splitResolved, splitHashStr, jsSplitHash_of_no_hash s.data h,
    List.map_cons, List.map_nil]

/-- C1 — counterexample.  The claim says both components split `resolved` at
the LAST `#`; on `"https://e.com/x#frag#tok"` that reading yields url
`"https://e.com/x#frag"` and token `"tok"`, but the code yields url
`"https://e.com/x"` and token `"frag"` — in `generateNix` the descriptor's url
and token, and in `updateResolvedSha1` the revision handed to the resolution
tool (an oracle echoing the revision it is given records `"extra"`, not
`"rev"`, for `"git+https://e.com/repo.git#extra#rev"`). -/
theorem c1_counterexample :
    splitResolved "https://e.com/x#frag#tok" = ("https://e.com/x", some "frag")
    ∧ descriptorOf "pkg@1"
        { resolved := some "https://e.com/x#frag#tok", sha256 := none, others := [] }
      = some { full_file_name := "x", file_name := "x", kind := FetchKind.plain,
               url := "https://e.com/x", token := "frag", sha256 := "undefined" }
    ∧ updateResolvedSha1
        { fetchSha1 := fun _ => Except.ok "F", gitSha256 := fun _ rev => Except.ok rev }
        { resolved := some "git+https://e.com/repo.git#extra#rev", sha256 := none, others := [] }
      = Except.ok { resolved := some "git+https://e.com/repo.git#extra#rev",
                    sha256 := some "extra", others := [] }
    ∧ ¬ (("https://e.com/x" : String) = "https://e.com/x#frag" ∧ ("frag" : String) = "tok") :=
  ⟨rfl, rfl, rfl, by decide⟩

/-- C1 (amended): for every entry whose `resolved` contains one or more `#`,
both the Reconciler and the Catalog Builder split `resolved` at the FIRST `#`
into `(url, token)`: the url is everything before the first `#` and the token
is the segment between the first and the second `#` (everything after the
first `#` when it is the only one); a URL which itself contains `#` is
truncated at its first `#`. -/
theorem c1_split_at_first_hash (u t r : String) (hu : '#' ∉ u.data) (ht : '#' ∉ t.data) :
    splitResolved (u ++ "#" ++ t) = (u, some t)
    ∧ splitResolved (u ++ "#" ++ t ++ "#" ++ r) = (u, some t)
    ∧ (∀ k e d, e.resolved = some (u ++ "#" ++ t ++ "#" ++ r) →
        descriptorOf k e = some d → d.token = t)
    ∧ (∀ o e, e.resolved = some (u ++ "#" ++ t ++ "#" ++ r) → t ≠ "" →
        is_https_git u = none → updateResolvedSha1 o e = Except.ok e) := by
  have h1 := splitResolved_single u t hu ht
  have h2 := splitResolved_multi u t r hu ht
  have hne2 : (u ++ "#" ++ t) ++ "#" ++ r ≠ "" := strApp_hash_ne_empty (u ++ "#" ++ t) r
  refine ⟨h1, h2, ?_, ?_⟩
  · intro k e d hre hd
    simp only [descriptorOf, hre, if_neg hne2, h2] at hd
    cases hg : is_https_git u <;> simp only [hg] at hd <;>
      (simp only [Option.some.injEq] at hd; subst hd; rfl)
  · intro o e hre hne hng
    simp only [updateResolvedSha1, hre, h2]
    have hcond : ¬ ((some t : Option String) = none ∨ (some t : Option String) = some "") := by
      simp [hne]
    rw [if_neg hne2, if_neg hcond, hng]

/-- C1 — witness for the amended theorem at the concrete input
`"https://e.com/x" ++ "#" ++ "frag"` (with trailing part `"tok"`). -/
theorem c1_split_at_first_hash_witness :
    ('#' ∉ "https://e.com/x".data ∧ '#' ∉ "frag".data)
    ∧ splitResolved ("https://e.com/x" ++ "#" ++ "frag") = ("https://e.com/x", some "frag")
    ∧ splitResolved ("https://e.com/x" ++ "#" ++ "frag" ++ "#" ++ "tok")
        = ("https://e.com/x", some "frag") :=
  ⟨⟨by decide, by decide⟩,
   (c1_split_at_first_hash "https://e.com/x" "frag" "tok" (by decide) (by decide)).1,
   (c1_split_at_first_hash "https://e.com/x" "frag" "tok" (by decide) (by decide)).2.1⟩

/-- C2 — the code, not the claim, is at fault: line 130 assigns the
double-quoted (hence uninterpolated) literal `${url}#${pkg_sha1}` instead of
the url and the fetched digest.  Evaluating the reconciler at the claim's
example entry with an oracle whose fetch digest is `"0a1b2c"` shows `resolved`
becomes the literal template, not `"https://example.com/a-1.0.0.tgz#0a1b2c"`. -/
theorem c2_literal_template_bug :
    updateResolvedSha1
      { fetchSha1 := fun _ => Except.ok "0a1b2c", gitSha256 := fun _ _ => Except.error "unused" }
      { resolved := some "https://example.com/a-1.0.0.tgz", sha256 := none, others := [] }
      = Except.ok { resolved := some literalResolvedTemplate, sha256 := none, others := [] }
    ∧ literalResolvedTemplate ≠ "https://example.com/a-1.0.0.tgz#0a1b2c" :=
  ⟨rfl, by decide⟩

/-! Lemmas about the `generateNix` dedup loop. -/

theorem generateNixAux_sublist (deps : List (String × LockEntry)) (found : List String) :
    List.Sublist (generateNixAux deps found) (deps.filterMap descrOfPair) := by
  induction deps generalizing found with
  | nil => simp [generateNixAux]
  | cons p rest ih =>
    rw [List.filterMap_cons]
    cases hp : descrOfPair p with
    | none =>
      simp only [generateNixAux, hp]
      exact ih found
    | some d =>
      simp only [generateNixAux, hp]
      by_cases hf : d.full_file_name ∈ found
      · rw [if_pos hf]
        exact List.Sublist.cons d (ih found)
      · rw [if_neg hf]
        exact List.Sublist.cons₂ d (ih _)

theorem generateNixAux_nodup (deps : List (String × LockEntry)) (found : List String) :
    ((generateNixAux deps found).map (fun d => d.full_file_name)).Nodup
    ∧ ∀ d ∈ generateNixAux deps found, d.full_file_name ∉ found := by
  induction deps generalizing found with
  | nil => simp [generateNixAux]
  | cons p rest ih =>
    cases hp : descrOfPair p with
    | none =>
      simp only [generateNixAux, hp]
      exact ih found
    | some d =>
      simp only [generateNixAux, hp]
      by_cases hf : d.full_file_name ∈ found
      · rw [if_pos hf]
        exact ih found
      · rw [if_neg hf]
        obtain ⟨ihn, ihm⟩ := ih (d.full_file_name :: found)
        constructor
        · simp only [List.map_cons, List.nodup_cons]
          refine ⟨?_, ihn⟩
          intro hmem
          obtain ⟨d2, hd2, he⟩ := List.mem_map.mp hmem
          exact ihm d2 hd2 (by rw [he]; exact List.mem_cons_self _ _)
        · intro d2 hd2
          rcases List.mem_cons.mp hd2 with h | h
          · rw [h]; exact hf
          · exact fun hc => ihm d2 h (List.mem_cons_of_mem _ hc)

theorem generateNixAux_first_wins (deps : List (String × LockEntry)) (found : List String) :
    ∀ d ∈ generateNixAux deps found,
      (deps.filterMap descrOfPair).find? (fun d2 => d2.full_file_name == d.full_file_name)
        = some d := by
  induction deps generalizing found with
  | nil => intro d hd; simp [generateNixAux] at hd
  | cons p rest ih =>
    intro d hd
    rw [List.filterMap_cons]
    cases hp : descrOfPair p with
    | none =>
      simp only [generateNixAux, hp] at hd
      simp only
      exact ih found d hd
    | some d0 =>
      simp only [generateNixAux, hp] at hd
      simp only
      by_cases hf : d0.full_file_name ∈ found
      · rw [if_pos hf] at hd
        have hnm := (generateNixAux_nodup rest found).2 d hd
        have hne : ¬ (d0.full_file_name == d.full_file_name) = true := by
          simp only [beq_iff_eq]
          intro he
          exact hnm (he ▸ hf)
        have hstep : List.find? (fun d2 => d2.full_file_name == d.full_file_name)
            (d0 :: List.filterMap descrOfPair rest)
            = List.find? (fun d2 => d2.full_file_name == d.full_file_name)
              (List.filterMap descrOfPair rest) :=
          List.find?_cons_of_neg _ hne
        rw [hstep]
        exact ih found d hd
      · rw [if_neg hf] at hd
        rcases List.mem_cons.mp hd with h | h
        · rw [h]
          exact List.find?_cons_of_pos _ (by simp)
        · have hnm := (generateNixAux_nodup rest (d0.full_file_name :: found)).2 d h
          have hne : ¬ (d0.full_file_name == d.full_file_name) = true := by
            simp only [beq_iff_eq]
            intro he
            exact hnm (by rw [← he]; exact List.mem_cons_self _ _)
          have hstep : List.find? (fun d2 => d2.full_file_name == d.full_file_name)
              (d0 :: List.filterMap descrOfPair rest)
              = List.find? (fun d2 => d2.full_file_name == d.full_file_name)
                (List.filterMap descrOfPair rest) :=
            List.find?_cons_of_neg _ hne
          rw [hstep]
          exact ih _ d h

theorem generateNixAux_complete (deps : List (String × LockEntry)) (found : List String) :
    ∀ d0 ∈ deps.filterMap descrOfPair, d0.full_file_name ∉ found →
      ∃ d, d ∈ generateNixAux deps found ∧ d.full_file_name = d0.full_file_name := by
  induction deps generalizing found with
  | nil => intro d0 h; simp at h
  | cons p rest ih =>
    intro d0 hd0 hnf
    rw [List.filterMap_cons] at hd0
    cases hp : descrOfPair p with
    | none =>
      simp only [hp] at hd0
      obtain ⟨d, hd, he⟩ := ih found d0 hd0 hnf
      refine ⟨d, ?_, he⟩
      simp only [generateNixAux, hp]
      exact hd
    | some d1 =>
      simp only [hp] at hd0
      by_cases hf : d1.full_file_name ∈ found
      · rcases List.mem_cons.mp hd0 with h | h
        · rw [h] at hnf; exact absurd hf hnf
        · obtain ⟨d, hd, he⟩ := ih found d0 h hnf
          refine ⟨d, ?_, he⟩
          simp only [generateNixAux, hp, if_pos hf]
          exact hd
      · by_cases heq : d0.full_file_name = d1.full_file_name
        · refine ⟨d1, ?_, heq.symm⟩
          simp only [generateNixAux, hp, if_neg hf]
          exact List.mem_cons_self _ _
        · rcases List.mem_cons.mp hd0 with h | h
          · rw [h] at heq; exact absurd rfl heq
          · have hnf2 : d0.full_file_name ∉ d1.full_file_name :: found := by
              intro hc
              rcases List.mem_cons.mp hc with hc | hc
              · exact heq hc
              · exact hnf hc
            obtain ⟨d, hd, he⟩ := ih (d1.full_file_name :: found) d0 h hnf2
            refine ⟨d, ?_, he⟩
            simp only [generateNixAux, hp, if_neg hf]
            exact List.mem_cons_of_mem _ hd

/-- C3: in the emitted catalog no `full_file_name` repeats; the emitted
descriptors form a sublist (hence keep the relative order) of the per-entry
descriptors in lockfile iteration order; each emitted descriptor is exactly
the first per-entry descriptor bearing its name (first occurrence wins, later
duplicates silently dropped); and every name derived from some entry is
represented. -/
theorem c3_dedup_first_wins_stable (deps : List (String × LockEntry)) :
    ((generateNix deps).map (fun d => d.full_file_name)).Nodup
    ∧ List.Sublist (generateNix deps) (deps.filterMap descrOfPair)
    ∧ (∀ d ∈ generateNix deps,
        (deps.filterMap descrOfPair).find? (fun d2 => d2.full_file_name == d.full_file_name)
          = some d)
    ∧ (∀ d0 ∈ deps.filterMap descrOfPair,
        ∃ d, d ∈ generateNix deps ∧ d.full_file_name = d0.full_file_name) :=
  ⟨(generateNixAux_nodup deps []).1,
   generateNixAux_sublist deps [],
   generateNixAux_first_wins deps [],
   fun d0 h0 => generateNixAux_complete deps [] d0 h0 (List.not_mem_nil _)⟩

/-- C3 — witness: on the concrete lockfile `exDupDeps` (two entries colliding
on basename `a.tgz`, one distinct) the catalog has no repeated name, keeps the
first-occurrence descriptor (url of the first `a.tgz` entry) and preserves
order. -/
theorem c3_dedup_first_wins_stable_witness :
    ((generateNix exDupDeps).map (fun d => d.full_file_name)).Nodup
    ∧ (generateNix exDupDeps).map (fun d => d.full_file_name) = ["a.tgz", "c.tgz"]
    ∧ (generateNix exDupDeps).map (fun d => d.url)
        = ["https://e.com/a.tgz", "https://e.com/c.tgz"] :=
  ⟨(c3_dedup_first_wins_stable exDupDeps).1, by rfl, by rfl⟩

/-! Namespace derivation and git classification. -/

theorem takeWhile_word_append (w r : List Char) (hw : ∀ c ∈ w, isWordChar c = true) :
    (w ++ '/' :: r).takeWhile isWordChar = w
    ∧ (w ++ '/' :: r).dropWhile isWordChar = '/' :: r := by
  have hslash : isWordChar '/' = false := by decide
  induction w with
  | nil => simp [List.takeWhile_cons, List.dropWhile_cons, hslash]
  | cons c cs ih =>
    have hc : isWordChar c = true := hw c (List.mem_cons_self _ _)
    have hcs : ∀ c2 ∈ cs, isWordChar c2 = true := fun c2 h2 => hw c2 (List.mem_cons_of_mem _ h2)
    obtain ⟨h1, h2⟩ := ih hcs
    simp [List.takeWhile_cons, List.dropWhile_cons, hc, h1, h2]

theorem namespaceOf_scoped (w k2 : String) (hw : w.data ≠ [])
    (hwc : ∀ c ∈ w.data, isWordChar c = true) :
    namespaceOf ("@" ++ w ++ "/" ++ k2) = "@" ++ w ++ "-" := by
  obtain ⟨ht, hdp⟩ := takeWhile_word_append w.data k2.data hwc
  have hd : ("@" ++ w ++ "/" ++ k2).data = '@' :: (w.data ++ '/' :: k2.data) := by
    rw [strApp_data, strApp_data, strApp_data,
      show ("@" : String).data = ['@'] from rfl, show ("/" : String).data = ['/'] from rfl]
    simp
  simp only [namespaceOf, hd, ht, hdp]

/-- C4: for every entry whose key starts with `@`, a non-empty run of word
characters `w`, and `/`, the emitted descriptor's `full_file_name` starts with
the scope name `@w` followed by the `-` separator. -/
theorem c4_scope_in_full_file_name (w k2 : String) (e : LockEntry) (d : Descriptor)
    (hw : w.data ≠ []) (hwc : ∀ c ∈ w.data, isWordChar c = true)
    (hd : descriptorOf ("@" ++ w ++ "/" ++ k2) e = some d) :
    ∃ t, d.full_file_name = "@" ++ w ++ "-" ++ t := by
  cases hre : e.resolved with
  | none => simp [descriptorOf, hre] at hd
  | some r =>
    simp only [descriptorOf, hre] at hd
    by_cases hr0 : r = ""
    · rw [if_pos hr0] at hd; cases hd
    · rw [if_neg hr0] at hd
      rw [namespaceOf_scoped w k2 hw hwc] at hd
      cases hg : is_https_git (splitResolved r).1 <;> simp only [hg] at hd <;>
        (simp only [Option.some.injEq] at hd; subst hd; exact ⟨_, rfl⟩)

/-- C4 — witness at the claim's example: key `@scope/pkg@^1.0.0`, resolved url
ending in `pkg-1.0.0.tgz`, hash `abc123`, produces
`full_file_name = "@scope-pkg-1.0.0.tgz"`. -/
theorem c4_scope_in_full_file_name_witness :
    (("scope" : String).data ≠ [] ∧ ∀ c ∈ ("scope" : String).data, isWordChar c = true)
    ∧ descriptorOf ("@" ++ "scope" ++ "/" ++ "pkg@^1.0.0") exScoped = some exScopedDescr
    ∧ (∃ t, exScopedDescr.full_file_name = "@" ++ "scope" ++ "-" ++ t)
    ∧ exScopedDescr.full_file_name = "@scope-pkg-1.0.0.tgz" :=
  ⟨⟨by decide, by decide⟩, by rfl,
   c4_scope_in_full_file_name "scope" "pkg@^1.0.0" exScoped exScopedDescr
     (by decide) (by decide) (by rfl),
   by rfl⟩

theorem listPre_append_left (a b c : List Char) : listPre (a ++ b) (a ++ c) = listPre b c := by
  induction a with
  | nil => rfl
  | cons x xs ih => simp [listPre, ih]

/-- Shared shape lemma for the git branch of `generateNix`: an entry whose
`resolved` is `u#t` (no `#` inside `u` or `t`) with `is_https_git u = some g`
yields exactly the SourceControlFetch descriptor with revision `t`,
repository url `g` and the interpolated `sha256` field. -/
theorem descriptorOf_git (k u t g : String) (e : LockEntry)
    (hre : e.resolved = some (u ++ "#" ++ t)) (hu : '#' ∉ u.data) (ht : '#' ∉ t.data)
    (hg : is_https_git u = some g) :
    descriptorOf k e = some
      { full_file_name := namespaceOf k ++ (urlBasename u ++ "-" ++ t),
        file_name := urlBasename u, kind := FetchKind.sourceControl,
        url := g, token := t, sha256 := jsStr e.sha256 } := by
  have hne := strApp_hash_ne_empty u t
  simp only [descriptorOf, hre, if_neg hne, splitResolved_single u t hu ht, hg]
  rfl

/-- C6: a `resolved` whose url part is classified by the source-control
pattern produces a SourceControlFetch descriptor carrying the token as the
revision and the classified repository URL; the classification strips the
`git+` scheme prefix when the url starts with `git+https://`, and keeps the
url verbatim when it merely ends in `.git`. -/
theorem c6_git_classification (u t g k : String) (e : LockEntry)
    (hre : e.resolved = some (u ++ "#" ++ t)) (hu : '#' ∉ u.data) (ht : '#' ∉ t.data)
    (hg : is_https_git u = some g) :
    (∃ d, descriptorOf k e = some d ∧ d.kind = FetchKind.sourceControl
      ∧ d.token = t ∧ d.url = g)
    ∧ (∀ v, hasPre "https://" v = true → is_https_git ("git+" ++ v) = some v)
    ∧ (∀ w2, hasPre "git+https://" w2 = false → hasSuf ".git" w2 = true →
        is_https_git w2 = some w2) := by
  refine ⟨⟨_, descriptorOf_git k u t g e hre hu ht hg, rfl, rfl, rfl⟩, ?_, ?_⟩
  · intro v hv
    have hp : hasPre "git+https://" ("git+" ++ v) = true := by
      rw [hasPre, strApp_data,
        show ("git+https://" : String).data
          = ("git+" : String).data ++ ("https://" : String).data from rfl,
        listPre_append_left]
      exact hv
    rw [is_https_git, if_pos hp]
    have hlen : ("git+" : String).data.length = 4 := rfl
    have hdrop : (("git+" ++ v : String).data).drop 4 = v.data := by
      rw [strApp_data, ← hlen]
      exact List.drop_left _ _
    rw [hdrop]
  · intro w2 h1 h2
    rw [is_https_git, if_neg (by simp [h1]), if_pos h2]

/-- C6 — witness at the claim's example:
`git+https://example.com/repo.git#deadbeef` is classified as SourceControlFetch
with revision `deadbeef` and repository URL `https://example.com/repo.git`. -/
theorem c6_git_classification_witness :
    ('#' ∉ ("git+https://example.com/repo.git" : String).data
      ∧ '#' ∉ ("deadbeef" : String).data
      ∧ is_https_git "git+https://example.com/repo.git" = some "https://example.com/repo.git")
    ∧ (∃ d, descriptorOf "repo@1" exGitHashed = some d ∧ d.kind = FetchKind.sourceControl
        ∧ d.token = "deadbeef" ∧ d.url = "https://example.com/repo.git") :=
  ⟨⟨by decide, by decide, by rfl⟩,
   (c6_git_classification "git+https://example.com/repo.git" "deadbeef"
     "https://example.com/repo.git" "repo@1" exGitHashed (by rfl) (by decide) (by decide)
     (by rfl)).1⟩

/-- C10: a git-classified entry reaching the catalog builder with its `sha256`
field absent is not skipped and not an error: it is emitted as a
SourceControlFetch descriptor whose sha256 field is the literal string
`"undefined"` (JS interpolation of `undefined`). -/
theorem c10_missing_sha256_is_undefined (u t k g : String) (e : LockEntry)
    (hre : e.resolved = some (u ++ "#" ++ t)) (hu : '#' ∉ u.data) (ht : '#' ∉ t.data)
    (hg : is_https_git u = some g) (hs : e.sha256 = none) :
    ∃ d, descriptorOf k e = some d ∧ d.kind = FetchKind.sourceControl
      ∧ d.sha256 = "undefined" := by
  refine ⟨_, descriptorOf_git k u t g e hre hu ht hg, rfl, ?_⟩
  simp [jsStr, hs]

/-- C10 — witness: `exGitNoSha` (git entry, `sha256` absent) is emitted with
sha256 field `"undefined"`. -/
theorem c10_missing_sha256_is_undefined_witness :
    exGitNoSha.sha256 = none
    ∧ (∃ d, descriptorOf "repo@1" exGitNoSha = some d ∧ d.kind = FetchKind.sourceControl
        ∧ d.sha256 = "undefined")
    ∧ (generateNix [("repo@1", exGitNoSha)]).map (fun d => d.sha256) = ["undefined"] :=
  ⟨by rfl,
   c10_missing_sha256_is_undefined "git+https://example.com/repo.git" "deadbeef" "repo@1"
     "https://example.com/repo.git" exGitNoSha (by rfl) (by decide) (by decide)
     (by rfl) (by rfl),
   by rfl⟩

/-! Reconciler lemmas. -/

theorem updateResolvedSha1_fully_hashed (o : Oracle) (e : LockEntry)
    (h : entryFullyHashed o e) : updateResolvedSha1 o e = Except.ok e := by
  cases hre : e.resolved with
  | none => simp [updateResolvedSha1, hre]
  | some r =>
    obtain ⟨t, ht, htne, hgit⟩ := h r hre
    by_cases hr0 : r = ""
    · simp [updateResolvedSha1, hre, hr0]
    · have hcond : ¬ ((splitResolved r).2 = none ∨ (splitResolved r).2 = some "") := by
        rw [ht]
        simp [htne]
      simp only [updateResolvedSha1, hre, if_neg hr0, if_neg hcond]
      cases hg : is_https_git (splitResolved r).1 with
      | none => rfl
      | some g =>
        obtain ⟨s, hs, hos⟩ := hgit g hg
        simp only [ht, jsStr, hos, Except.map]
        have hee : ({ resolved := some r, sha256 := some s, others := e.others } : LockEntry)
            = e := by
          cases e
          simp only at hre hs ⊢
          simp [hre, hs]
        rw [hee]

theorem reconcile_fully_hashed (o : Oracle) (deps : List (String × LockEntry))
    (h : ∀ p ∈ deps, entryFullyHashed o p.2) :
    reconcile o deps = Except.ok deps := by
  induction deps with
  | nil => rfl
  | cons p rest ih =>
    obtain ⟨k, e⟩ := p
    have he := updateResolvedSha1_fully_hashed o e (h (k, e) (List.mem_cons_self _ _))
    have hr := ih (fun q hq => h q (List.mem_cons_of_mem _ hq))
    simp only [reconcile, he, hr]

/-- C5: reconciling a lockfile in which every entry already carries its
required integrity data returns a structure equal (deep-equal) to the
original, so the equality check finds no change: nothing is written and the
run does not take the abort path regardless of `--no-patch`. -/
theorem c5_roundtrip_no_rewrite (o : Oracle) (deps : List (String × LockEntry))
    (h : ∀ p ∈ deps, entryFullyHashed o p.2) (noPatch noNix : Bool) :
    reconcile o deps = Except.ok deps
    ∧ (mainRun o noPatch noNix deps).wroteLockfile = false
    ∧ (mainRun o noPatch noNix deps).exitCode = 0 := by
  have hr := reconcile_fully_hashed o deps h
  refine ⟨hr, ?_, ?_⟩ <;> simp [mainRun, hr]

/-- C5 — witness on `exHashedDeps` (a hashed plain entry, a git entry whose
`sha256` matches the oracle, and a local entry) under `exOracle`. -/
theorem c5_roundtrip_no_rewrite_witness :
    reconcile exOracle exHashedDeps = Except.ok exHashedDeps
    ∧ (mainRun exOracle true false exHashedDeps).wroteLockfile = false
    ∧ (mainRun exOracle true false exHashedDeps).exitCode = 0 := by
  have h : ∀ p ∈ exHashedDeps, entryFullyHashed exOracle p.2 := by
    intro p hp
    have hq : p = ("a@^1.0.0", exPlainHashed) ∨ p = ("repo@1", exGitHashed)
        ∨ p = ("local@file:./x", exLocal) := by
      simpa [exHashedDeps] using hp
    rcases hq with rfl | rfl | rfl
    · intro r hr
      simp only [exPlainHashed, Option.some.injEq] at hr
      refine ⟨"abc123", ?_, by decide, ?_⟩
      · rw [← hr]; rfl
      · intro g hg
        rw [← hr] at hg
        rw [show is_https_git (splitResolved "https://example.com/a-1.0.0.tgz#abc123").1
          = none from rfl] at hg
        cases hg
    · intro r hr
      simp only [exGitHashed, Option.some.injEq] at hr
      refine ⟨"deadbeef", ?_, by decide, ?_⟩
      · rw [← hr]; rfl
      · intro g hg
        rw [← hr] at hg
        rw [show is_https_git (splitResolved "git+https://example.com/repo.git#deadbeef").1
          = some "https://example.com/repo.git" from rfl] at hg
        cases hg
        exact ⟨"s256val", rfl, rfl⟩
    · intro r hr
      simp [exLocal] at hr
  exact c5_roundtrip_no_rewrite exOracle exHashedDeps h true false

/-- C7: under `--no-patch`, if reconciliation produced a structure different
from the reparse of the original bytes, the run exits with code 1 and the
lockfile is not written. -/
theorem c7_no_patch_blocks_write (o : Oracle) (orig json : List (String × LockEntry))
    (noNix : Bool) (hr : reconcile o orig = Except.ok json) (hne : json ≠ orig) :
    (mainRun o true noNix orig).exitCode = 1
    ∧ (mainRun o true noNix orig).wroteLockfile = false := by
  simp [mainRun, hr, hne]

/-- C7 — witness: `exNoHashDeps` reconciles (under `exOracle`) to the changed
`exPatchedDeps`; with `--no-patch` the run exits 1 and writes nothing. -/
theorem c7_no_patch_blocks_write_witness :
    reconcile exOracle exNoHashDeps = Except.ok exPatchedDeps
    ∧ exPatchedDeps ≠ exNoHashDeps
    ∧ (mainRun exOracle true false exNoHashDeps).exitCode = 1
    ∧ (mainRun exOracle true false exNoHashDeps).wroteLockfile = false := by
  have hr : reconcile exOracle exNoHashDeps = Except.ok exPatchedDeps := by rfl
  have hne : exPatchedDeps ≠ exNoHashDeps := by decide
  exact ⟨hr, hne, (c7_no_patch_blocks_write exOracle _ _ false hr hne).1,
    (c7_no_patch_blocks_write exOracle _ _ false hr hne).2⟩

theorem reconcile_error_of_entry (o : Oracle) (deps : List (String × LockEntry))
    (k : String) (e : LockEntry) (err : String)
    (hmem : (k, e) ∈ deps) (hup : updateResolvedSha1 o e = Except.error err) :
    ∃ err2, reconcile o deps = Except.error err2 := by
  induction deps with
  | nil => cases hmem
  | cons p rest ih =>
    obtain ⟨k1, e1⟩ := p
    rcases List.mem_cons.mp hmem with h | h
    · cases h
      exact ⟨err, by simp only [reconcile, hup]⟩
    · cases hu1 : updateResolvedSha1 o e1 with
      | error err1 => exact ⟨err1, by simp only [reconcile, hu1]⟩
      | ok e2 =>
        obtain ⟨err2, hrec⟩ := ih h
        exact ⟨err2, by simp only [reconcile, hu1, hrec]⟩

/-- C8: when reconciliation rejects, the run exits 1 with no catalog and no
write; a catalog is only ever produced from a fully successful reconciliation;
and one failing entry is enough to reject the whole batch. -/
theorem c8_fail_fast_no_catalog (o : Oracle) (orig : List (String × LockEntry))
    (noPatch noNix : Bool) :
    (∀ err, reconcile o orig = Except.error err →
      mainRun o noPatch noNix orig
        = { exitCode := 1, wroteLockfile := false, catalog := none })
    ∧ ((mainRun o noPatch noNix orig).catalog ≠ none →
        ∃ json, reconcile o orig = Except.ok json)
    ∧ (∀ k e err, (k, e) ∈ orig → updateResolvedSha1 o e = Except.error err →
        ∃ err2, reconcile o orig = Except.error err2) := by
  refine ⟨?_, ?_, ?_⟩
  · intro err h
    simp [mainRun, h]
  · intro h
    cases hr : reconcile o orig with
    | error e2 => exact absurd (by simp [mainRun, hr]) h
    | ok json => exact ⟨json, rfl⟩
  · intro k e err hmem hup
    exact reconcile_error_of_entry o orig k e err hmem hup

/-- C8 — witness: under the failing oracle, `exNoHashDeps` rejects and the run
exits 1 producing no catalog. -/
theorem c8_fail_fast_no_catalog_witness :
    reconcile exErrOracle exNoHashDeps = Except.error "ECONNREFUSED"
    ∧ mainRun exErrOracle false false exNoHashDeps
        = { exitCode := 1, wroteLockfile := false, catalog := none } :=
  ⟨by rfl,
   (c8_fail_fast_no_catalog exErrOracle exNoHashDeps false false).1 "ECONNREFUSED" (by rfl)⟩

theorem updateResolvedSha1_frame (o : Oracle) (e e2 : LockEntry)
    (h : updateResolvedSha1 o e = Except.ok e2) :
    e2.others = e.others ∧ (e.resolved = none → e2 = e) := by
  cases hre : e.resolved with
  | none =>
    simp only [updateResolvedSha1, hre, Except.ok.injEq] at h
    exact ⟨by rw [← h], fun _ => h.symm⟩
  | some r =>
    refine ⟨?_, fun hc => absurd hc (by simp)⟩
    simp only [updateResolvedSha1, hre] at h
    by_cases hr0 : r = ""
    · rw [if_pos hr0] at h
      simp only [Except.ok.injEq] at h
      rw [← h]
    · rw [if_neg hr0] at h
      by_cases hc : (splitResolved r).2 = none ∨ (splitResolved r).2 = some ""
      · rw [if_pos hc] at h
        cases hf : o.fetchSha1 (splitResolved r).1 with
        | error err => rw [hf] at h; cases h
        | ok s =>
          rw [hf] at h
          simp only [Except.map, Except.ok.injEq] at h
          rw [← h]
      · rw [if_neg hc] at h
        cases hg : is_https_git (splitResolved r).1 with
        | some g =>
          simp only [hg] at h
          cases hgs : o.gitSha256 g (jsStr (splitResolved r).2) with
          | error err => rw [hgs] at h; cases h
          | ok s =>
            rw [hgs] at h
            simp only [Except.map, Except.ok.injEq] at h
            rw [← h]
        | none =>
          simp only [hg, Except.ok.injEq] at h
          rw [← h]

/-- C9: a successful reconciliation keeps the entry count, the keys and their
order; every entry keeps all fields other than `resolved` and `sha256`; and an
entry without a `resolved` field is returned entirely unchanged. -/
theorem c9_reconcile_frame (o : Oracle) (deps deps2 : List (String × LockEntry))
    (h : reconcile o deps = Except.ok deps2) :
    deps2.length = deps.length
    ∧ deps2.map Prod.fst = deps.map Prod.fst
    ∧ List.Forall₂ (fun a b : String × LockEntry =>
        a.1 = b.1 ∧ b.2.others = a.2.others ∧ (a.2.resolved = none → b.2 = a.2))
      deps deps2 := by
  induction deps generalizing deps2 with
  | nil =>
    simp only [reconcile, Except.ok.injEq] at h
    subst h
    exact ⟨rfl, rfl, List.Forall₂.nil⟩
  | cons p rest ih =>
    obtain ⟨k, e⟩ := p
    simp only [reconcile] at h
    cases hu : updateResolvedSha1 o e with
    | error err => rw [hu] at h; cases h
    | ok e2 =>
      cases hr : reconcile o rest with
      | error err => rw [hu, hr] at h; cases h
      | ok rest2 =>
        rw [hu, hr] at h
        simp only [Except.ok.injEq] at h
        subst h
        obtain ⟨hl, hk, hf⟩ := ih rest2 hr
        obtain ⟨ho, hn⟩ := updateResolvedSha1_frame o e e2 hu
        refine ⟨by simp [hl], by simp [hk], ?_⟩
        exact List.Forall₂.cons ⟨rfl, ho, fun hre => by rw [hn hre]⟩ hf

/-- C9 — witness: reconciling `exNoHashDeps` to `exPatchedDeps` keeps length,
keys and order, and touches nothing besides the hash fields. -/
theorem c9_reconcile_frame_witness :
    exPatchedDeps.length = exNoHashDeps.length
    ∧ exPatchedDeps.map Prod.fst = exNoHashDeps.map Prod.fst
    ∧ List.Forall₂ (fun a b : String × LockEntry =>
        a.1 = b.1 ∧ b.2.others = a.2.others ∧ (a.2.resolved = none → b.2 = a.2))
      exNoHashDeps exPatchedDeps :=
  c9_reconcile_frame exOracle exNoHashDeps exPatchedDeps (by rfl)

end Yarn2Nix
